import Mathlib

/-
Verification of the mesh-layer construction and composition engine of
neurophox (src/neurophox/torch/generic.py).

The source emulates complex tensors as real tensor pairs stacked along a
leading axis of size 2; the structure `CPair` below plays that role, and a
tensor indexed by signal paths and mesh layers becomes a function out of
`Fin N` and `Fin L`.  Elementwise torch operations act pointwise in every
batch dimension, so an input batch row is modelled as a single vector
`Fin N → CPair`.
-/

/-- The complex-pair representation: component `re` is index 0 and `im` is
index 1 of the leading axis of size 2 used throughout the source. -/
structure CPair where
  re : ℝ
  im : ℝ

instance : Add CPair := ⟨fun a b => ⟨a.re + b.re, a.im + b.im⟩⟩

instance : Sub CPair := ⟨fun a b => ⟨a.re - b.re, a.im - b.im⟩⟩

instance : Neg CPair := ⟨fun a => ⟨-a.re, -a.im⟩⟩

/-- Source helper `cc_mul` ("complex * complex"):
real = comp1[0]*comp2[0] - comp1[1]*comp2[1]; comp = comp1[0]*comp2[1] + comp1[1]*comp2[0]. -/
def cc_mul (c1 c2 : CPair) : CPair :=
  ⟨c1.re * c2.re - c1.im * c2.im, c1.re * c2.im + c1.im * c2.re⟩

/-- Source helper `rc_mul` ("real * complex"): the real operand is broadcast
into both components. -/
def rc_mul (r : ℝ) (c : CPair) : CPair := ⟨r * c.re, r * c.im⟩

/-- Source helper `s_mul` ("complex scalar * complex"):
s.real * comp + stack((-s.imag*comp[1], s.imag*comp[0])). -/
def s_mul (sre sim : ℝ) (c : CPair) : CPair :=
  ⟨sre * c.re + -sim * c.im, sre * c.im + sim * c.re⟩

/-- Source helper `conj_t`: negate the imaginary component. -/
def conj_t (c : CPair) : CPair := ⟨c.re, -c.im⟩

/-- Tensor division by the scalar 2, as in `... / 2` in `mesh_layers`. -/
noncomputable def cdiv2 (c : CPair) : CPair := ⟨c.re / 2, c.im / 2⟩

/-! ## PermutationLayer -/

/-- State of a `PermutationLayer`: the permutation array and the precomputed
inverse array, both over path indices. -/
structure PermutationLayer (n : Nat) where
  permuted_indices : Fin n → Fin n
  inv_permuted_indices : Fin n → Fin n

/-- The `np.zeros_like` initial inverse array of the constructor (empty when
n = 0, all-zero otherwise). -/
def zerosFin : (n : Nat) → Fin n → Fin n
  | 0 => fun j => j
  | _ + 1 => fun _ => ⟨0, Nat.succ_pos _⟩

/-- The constructor loop
`for idx, perm_idx in enumerate(self.permuted_indices): self.inv_permuted_indices[perm_idx] = idx`. -/
def buildInv {n : Nat} (p : Fin n → Fin n) : Fin n → Fin n :=
  (List.finRange n).foldl (fun acc idx => Function.update acc (p idx) idx) (zerosFin n)

/-- `PermutationLayer.__init__` on an index function that is already known to
take values in `0..n-1` (the raw numpy-level constructor, with its
out-of-range error behaviour, is modelled separately below). -/
def PermutationLayer.mk' {n : Nat} (p : Fin n → Fin n) : PermutationLayer n :=
  ⟨p, buildInv p⟩

/-- `transform`: re-index the last axis, `inputs[..., self.permuted_indices]`. -/
def PermutationLayer.transform {n : Nat} {α : Type*} (P : PermutationLayer n)
    (x : Fin n → α) : Fin n → α :=
  fun j => x (P.permuted_indices j)

/-- `inverse_transform`: re-index the last axis by the precomputed inverse. -/
def PermutationLayer.inverse_transform {n : Nat} {α : Type*} (P : PermutationLayer n)
    (x : Fin n → α) : Fin n → α :=
  fun j => x (P.inv_permuted_indices j)

/-! ## The numpy-level PermutationLayer constructor (error behaviour)

The constructor receives a raw numpy integer array.  The only operation in
`__init__` that can raise is the element write
`self.inv_permuted_indices[perm_idx] = idx`: numpy wraps a negative index by
adding the array length and raises an IndexError when the result is still out
of `0..n-1`.  No bijection check of any kind is performed. -/

/-- numpy index wraparound: a negative index has the array length added. -/
def npwrap (n : Nat) (i : Int) : Int := if i < 0 then i + n else i

/-- numpy element write `arr[i] = v` with wraparound of negative indices;
`none` models the IndexError raised on an out-of-range index. -/
def npset (arr : List Int) (i : Int) (v : Int) : Option (List Int) :=
  if 0 ≤ npwrap arr.length i ∧ npwrap arr.length i < arr.length then
    some (arr.set (npwrap arr.length i).toNat v)
  else none

/-- The constructor's enumerate loop, writing `inv[perm[idx]] = idx` in order
and propagating the first IndexError. -/
def init_loop : List (Nat × Int) → List Int → Option (List Int)
  | [], acc => some acc
  | iv :: rest, acc =>
      match npset acc iv.2 iv.1 with
      | none => none
      | some acc2 => init_loop rest acc2

/-- `PermutationLayer.__init__` at the numpy level: start from
`np.zeros_like(perm)` and run the enumerate loop; the result is
`(permuted_indices, inv_permuted_indices)`, or `none` when the loop raises. -/
def permutation_layer_init (perm : List Int) : Option (List Int × List Int) :=
  (init_loop perm.enum (List.replicate perm.length 0)).map (fun inv => (perm, inv))

/-! ## The pairwise off-diagonal permutation -/

/-- Modelled from the spec: `pairwise_off_diag_permutation` lives in the
helpers module, which is not under src/.  Per the spec it is a fixed
length-N index array pairing path 2k with path 2k+1; with an odd number of
paths the final idle path has no partner and stays in place. -/
def pairwise_off_diag_permutation (N : Nat) : Fin N → Fin N :=
  fun n =>
    ⟨if n.val % 2 = 0 then (if n.val + 1 < N then n.val + 1 else n.val) else n.val - 1,
     by have hv := n.isLt; split_ifs <;> omega⟩

/-! ## MeshParamTorch.single_mode_arrangement

The source transposes the raw [L, N/2] parameter, allocates an [N, L] zero
array and assigns the transpose into a row stripe:
`stripe_tensor[:-1][::2] = tensor_t` when `units` is odd and
`stripe_tensor[::2] = tensor_t` when it is even.  Both slicings write exactly
the rows 0, 2, ..., 2*(N/2 - 1): dropping the last row first merely fixes the
row count when N is odd.  The assignment loop is modelled as a fold writing
row 2k of the zero array for each k below N/2. -/

def single_mode_arrangement {L : Nat} (units : Nat)
    (param : Fin L → Fin (units / 2) → ℝ) : Fin units → Fin L → ℝ :=
  (List.finRange (units / 2)).foldl
    (fun acc k => fun n l => if n.val = 2 * k.val then param l k else acc n l)
    (fun _ _ => 0)

/-! ## MeshPhasesTorch and MeshTorch.mesh_layers, value level

The tensors of the source are functions of a path index (Fin N) and a layer
index (Fin L); the stacked complex representation is a CPair value.  The
`MeshModel` collaborator is external to src/: its outputs (mask, error
tensors in the [N, L] path-by-layer form consumed by `rc_mul`, wiring
permutations, flags) are taken as inputs here, exactly as `MeshTorch`
consumes them. -/

inductive MeshBasis
  | bloch
  | single_mode

/-- The data MeshTorchLayer draws from its MeshModel and parameters. -/
structure MeshParams (N L : Nat) where
  theta : Fin L → Fin (N / 2) → ℝ
  phi : Fin L → Fin (N / 2) → ℝ
  mask : Fin L → Fin (N / 2) → ℝ
  gamma : Fin N → ℝ
  hadamard : Bool
  basis : MeshBasis
  enn : Fin N → Fin L → ℝ
  enp : Fin N → Fin L → ℝ
  epn : Fin N → Fin L → ℝ
  epp : Fin N → Fin L → ℝ
  perm_idx : Fin (L + 1) → Fin N → Fin N

/-- roll(x, -1) along the path axis: index n reads index n+1 (wrapping). -/
def succF {N : Nat} (n : Fin N) : Fin N := ⟨(n.val + 1) % N, Nat.mod_lt _ n.pos⟩

/-- roll(x, +1) along the path axis: index n reads index n-1 (wrapping). -/
def predF {N : Nat} (n : Fin N) : Fin N := ⟨(n.val + (N - 1)) % N, Nat.mod_lt _ n.pos⟩

/-- The masked effective parameter of MeshPhasesTorch.__init__:
`theta * torch_mask + torch_inv_mask * (1 - hadamard) * np.pi`. -/
noncomputable def masked_param {L M : Nat} (raw mask : Fin L → Fin M → ℝ)
    (hadamard : Bool) : Fin L → Fin M → ℝ :=
  fun l m =>
    raw l m * mask l m + (1 - mask l m) * (1 - (if hadamard then (1 : ℝ) else 0)) * Real.pi

/-- MeshPhasesTorch.internal_phase_shifts: the differential-mode arrangement
of the masked theta for the bloch basis (single/2 - roll(single,1,0)/2), the
single-mode arrangement for the single_mode basis. -/
noncomputable def internal_phase_shifts {N L : Nat} (P : MeshParams N L) :
    Fin N → Fin L → ℝ :=
  match P.basis with
  | .bloch => fun n l =>
      single_mode_arrangement N (masked_param P.theta P.mask P.hadamard) n l / 2 -
        single_mode_arrangement N (masked_param P.theta P.mask P.hadamard) (predF n) l / 2
  | .single_mode => single_mode_arrangement N (masked_param P.theta P.mask P.hadamard)

/-- MeshPhasesTorch.external_phase_shifts: the single-mode arrangement of the
masked phi for both supported bases. -/
noncomputable def external_phase_shifts {N L : Nat} (P : MeshParams N L) :
    Fin N → Fin L → ℝ :=
  single_mode_arrangement N (masked_param P.phi P.mask P.hadamard)

/-- The derived MeshPhasesTorch data consumed by mesh_layers: cos/sin stacks
of the arranged phases, and the global input phase screen from gamma. -/
structure MeshPhasesTorch (N L : Nat) where
  internal_psl : Fin N → Fin L → CPair
  external_psl : Fin N → Fin L → CPair
  input_phase_shift_layer : Fin N → CPair

noncomputable def mk_phases {N L : Nat} (P : MeshParams N L) : MeshPhasesTorch N L :=
  { internal_psl := fun n l => ⟨Real.cos (internal_phase_shifts P n l),
      Real.sin (internal_phase_shifts P n l)⟩
    external_psl := fun n l => ⟨Real.cos (external_phase_shifts P n l),
      Real.sin (external_phase_shifts P n l)⟩
    input_phase_shift_layer := fun n => ⟨Real.cos (P.gamma n), Real.sin (P.gamma n)⟩ }

/-- s11 of mesh_layers (both hadamard branches). -/
noncomputable def s11 {N L : Nat} (P : MeshParams N L) (ph : MeshPhasesTorch N L) :
    Fin N → Fin L → CPair :=
  if P.hadamard then
    fun n l => rc_mul (P.epp n l) (ph.internal_psl n l) +
      rc_mul (P.enn n l) (ph.internal_psl (succF n) l)
  else
    fun n l => rc_mul (P.epp n l) (ph.internal_psl n l) -
      rc_mul (P.enn n l) (ph.internal_psl (succF n) l)

/-- s22 of mesh_layers: the inner combination evaluated at n-1 because of the
outer roll(1, 1). -/
noncomputable def s22 {N L : Nat} (P : MeshParams N L) (ph : MeshPhasesTorch N L) :
    Fin N → Fin L → CPair :=
  if P.hadamard then
    fun n l => rc_mul (P.enn (predF n) l) (ph.internal_psl (predF n) l) +
      rc_mul (P.epp (predF n) l) (ph.internal_psl (succF (predF n)) l)
  else
    fun n l => -rc_mul (P.enn (predF n) l) (ph.internal_psl (predF n) l) +
      rc_mul (P.epp (predF n) l) (ph.internal_psl (succF (predF n)) l)

/-- s12 of mesh_layers: inner combination at n-1 (outer roll), with the
imaginary-unit scalar multiple in the non-hadamard branch. -/
noncomputable def s12 {N L : Nat} (P : MeshParams N L) (ph : MeshPhasesTorch N L) :
    Fin N → Fin L → CPair :=
  if P.hadamard then
    fun n l => rc_mul (P.enp (predF n) l) (ph.internal_psl (predF n) l) -
      rc_mul (P.epn (predF n) l) (ph.internal_psl (succF (predF n)) l)
  else
    fun n l => s_mul 0 1 (rc_mul (P.enp (predF n) l) (ph.internal_psl (predF n) l) +
      rc_mul (P.epn (predF n) l) (ph.internal_psl (succF (predF n)) l))

/-- s21 of mesh_layers. -/
noncomputable def s21 {N L : Nat} (P : MeshParams N L) (ph : MeshPhasesTorch N L) :
    Fin N → Fin L → CPair :=
  if P.hadamard then
    fun n l => rc_mul (P.epn n l) (ph.internal_psl n l) -
      rc_mul (P.enp n l) (ph.internal_psl (succF n) l)
  else
    fun n l => s_mul 0 1 (rc_mul (P.epn n l) (ph.internal_psl n l) +
      rc_mul (P.enp n l) (ph.internal_psl (succF n) l))

/-- diag_layers = cc_mul(external_psl, s11 + s22) / 2, before the odd-N
overwrite. -/
noncomputable def diag_pre {N L : Nat} (P : MeshParams N L) (ph : MeshPhasesTorch N L) :
    Fin N → Fin L → CPair :=
  fun n l => cdiv2 (cc_mul (ph.external_psl n l) (s11 P ph n l + s22 P ph n l))

/-- off_diag_layers = cc_mul(external_psl.roll(1, 1), s21 + s12) / 2. -/
noncomputable def off_diag_layers {N L : Nat} (P : MeshParams N L) (ph : MeshPhasesTorch N L) :
    Fin N → Fin L → CPair :=
  fun n l => cdiv2 (cc_mul (ph.external_psl (predF n) l) (s21 P ph n l + s12 P ph n l))

/-- diag_layers after the odd-N concatenation
`cat((diag_layers[:, :-1], ones), dim=1)` that overwrites the final path row
with 1+0i for every layer. -/
noncomputable def diag_layers {N L : Nat} (P : MeshParams N L) (ph : MeshPhasesTorch N L) :
    Fin N → Fin L → CPair :=
  fun n l => if N % 2 = 1 ∧ n.val = N - 1 then ⟨1, 0⟩ else diag_pre P ph n l

/-- MeshVerticalLayer state: pairwise index array, diagonal and off-diagonal
complex vectors, optional shared right/left permutations. -/
structure MeshVerticalLayer (N : Nat) where
  pairwise_perm_idx : Fin N → Fin N
  diag : Fin N → CPair
  off_diag : Fin N → CPair
  right_perm : Option (PermutationLayer N)
  left_perm : Option (PermutationLayer N)

/-- The coupling core of MeshVerticalLayer.transform:
diag_out = cc_mul(outputs, diag); off_diag_out = cc_mul(outputs, off_diag);
outputs = diag_out + off_diag_out[..., pairwise_perm_idx]. -/
def couple {N : Nat} (diag off_diag : Fin N → CPair) (σ : Fin N → Fin N)
    (x : Fin N → CPair) : Fin N → CPair :=
  fun n => cc_mul (x n) (diag n) + cc_mul (x (σ n)) (off_diag (σ n))

/-- MeshVerticalLayer.transform: optional left permutation, coupling core,
optional right permutation. -/
def MeshVerticalLayer.transform {N : Nat} (V : MeshVerticalLayer N)
    (x : Fin N → CPair) : Fin N → CPair :=
  let outputs := match V.left_perm with
    | none => x
    | some p => p.transform x
  let outputs2 := couple V.diag V.off_diag V.pairwise_perm_idx outputs
  match V.right_perm with
  | none => outputs2
  | some p => p.transform outputs2

/-- MeshVerticalLayer.inverse_transform: undo right_perm, couple with the
conjugated diagonal and the conjugated pairwise-permuted off-diagonal, undo
left_perm. -/
def MeshVerticalLayer.inverse_transform {N : Nat} (V : MeshVerticalLayer N)
    (y : Fin N → CPair) : Fin N → CPair :=
  let inputs := match V.right_perm with
    | none => y
    | some p => p.inverse_transform y
  let inputs2 := couple (fun n => conj_t (V.diag n))
    (fun n => conj_t (V.off_diag (V.pairwise_perm_idx n))) V.pairwise_perm_idx inputs
  match V.left_perm with
  | none => inputs2
  | some p => p.inverse_transform inputs2

/-- MeshTorch.mesh_layers: one vertical layer per mesh layer; layer 0 carries
left_perm = perm_idx[0] and right_perm = perm_idx[1]; layer l > 0 carries only
right_perm = perm_idx[l+1]. -/
noncomputable def mesh_layers {N L : Nat} (P : MeshParams N L) (ph : MeshPhasesTorch N L) :
    List (MeshVerticalLayer N) :=
  (List.finRange L).map fun l =>
    { pairwise_perm_idx := pairwise_off_diag_permutation N
      diag := fun n => diag_layers P ph n l
      off_diag := fun n => off_diag_layers P ph n l
      right_perm := some (PermutationLayer.mk' (P.perm_idx l.succ))
      left_perm := if l.val = 0 then some (PermutationLayer.mk' (P.perm_idx 0)) else none }

/-- MeshTorchLayer.transform: rebuild phases, multiply by the input phase
screen, then apply the vertical layers in increasing order. -/
noncomputable def mesh_transform {N L : Nat} (P : MeshParams N L)
    (x : Fin N → CPair) : Fin N → CPair :=
  let ph := mk_phases P
  let outputs := fun n => cc_mul (x n) (ph.input_phase_shift_layer n)
  (mesh_layers P ph).foldl (fun acc V => V.transform acc) outputs

/-- MeshTorchLayer.inverse_transform: apply the vertical layers' inverses in
decreasing order, then multiply by the conjugated input phase screen. -/
noncomputable def mesh_inverse_transform {N L : Nat} (P : MeshParams N L)
    (y : Fin N → CPair) : Fin N → CPair :=
  let ph := mk_phases P
  let inputs := (mesh_layers P ph).reverse.foldl (fun acc V => V.inverse_transform acc) y
  fun n => cc_mul (inputs n) (conj_t (ph.input_phase_shift_layer n))

/-! ## The inverse transform is the exact inverse on unitary layers -/

/-- Unitarity of one vertical layer under its pairwise coupling structure:
on every path, |diag|^2 + |off_diag|^2 = 1 and the two columns meeting in a
coupled pair are orthogonal.  This is exactly the condition under which the
conjugate-transpose computed by inverse_transform inverts transform. -/
def LayerUnitary {N : Nat} (V : MeshVerticalLayer N) : Prop :=
  ∀ n : Fin N,
    cc_mul (V.diag n) (conj_t (V.diag n)) +
        cc_mul (V.off_diag n) (conj_t (V.off_diag n)) = ⟨1, 0⟩ ∧
      cc_mul (conj_t (V.diag n)) (V.off_diag (V.pairwise_perm_idx n)) +
        cc_mul (conj_t (V.off_diag n)) (V.diag (V.pairwise_perm_idx n)) = ⟨0, 0⟩

/-- A PermutationLayer as produced by the constructor from a bijection. -/
def GoodPerm {N : Nat} : Option (PermutationLayer N) → Prop
  | none => True
  | some P => Function.Bijective P.permuted_indices ∧
      P.inv_permuted_indices = buildInv P.permuted_indices

/-! ## C1 counterexample mesh

units 2, one layer, hadamard false, basis single_mode, all phases zero,
identity wiring, and error tensors in the claim's stated unitary-coupling
form with kappa = 0: enn = epp = cos 0 = 1, enp = -epn = sin 0 = 0.  The
built layer is the zero matrix (the coupling formulas yield
epp*e^{i theta} - enn = 0 on every path when theta = 0), so the transform
annihilates every input and no inverse can restore it. -/

def ceParams : MeshParams 2 1 :=
  { theta := fun _ _ => 0
    phi := fun _ _ => 0
    mask := fun _ _ => 1
    gamma := fun _ => 0
    hadamard := false
    basis := MeshBasis.single_mode
    enn := fun _ _ => 1
    enp := fun _ _ => 0
    epn := fun _ _ => 0
    epp := fun _ _ => 1
    perm_idx := fun _ => id }

/-! ## C1 witness mesh

units 2, one layer, all phases zero, identity wiring, and error tensors of
the physical product form at kappa1 = kappa2 = 0 in the even-row stripe
arrangement (cell value doubled on the even row, zero elsewhere):
epp = [2, 0], enn = enp = epn = 0.  The built layer is the identity, which
is unitary, so the roundtrip theorem applies. -/

def wParams : MeshParams 2 1 :=
  { theta := fun _ _ => 0
    phi := fun _ _ => 0
    mask := fun _ _ => 1
    gamma := fun _ => 0
    hadamard := false
    basis := MeshBasis.single_mode
    enn := fun _ _ => 0
    enp := fun _ _ => 0
    epn := fun _ _ => 0
    epp := fun n _ => if n.val = 0 then 2 else 0
    perm_idx := fun _ => id }

/-- C7 witness mesh: units 3, one layer, zero phases and zero (trivially
stripe-arranged) error tensors, identity wiring. -/
def c7Params : MeshParams 3 1 :=
  { theta := fun _ _ => 0
    phi := fun _ _ => 0
    mask := fun _ _ => 1
    gamma := fun _ => 0
    hadamard := false
    basis := MeshBasis.single_mode
    enn := fun _ _ => 0
    enp := fun _ _ => 0
    epn := fun _ _ => 0
    epp := fun _ _ => 0
    perm_idx := fun _ => id }

/-- C8 witness mesh: units 2, one layer, everything masked out. -/
def c8Params : MeshParams 2 1 :=
  { theta := fun _ _ => 0
    phi := fun _ _ => 0
    mask := fun _ _ => 0
    gamma := fun _ => 0
    hadamard := false
    basis := MeshBasis.single_mode
    enn := fun _ _ => 1
    enp := fun _ _ => 1
    epn := fun _ _ => 1
    epp := fun _ _ => 1
    perm_idx := fun _ => id }

/-! ## Shape-level model: broadcasting and indexing on the last axis

transform / inverse_transform accept inputs with arbitrary batch dimensions;
only the last axis interacts with the length-N mesh tensors, through torch
elementwise broadcasting and integer-array indexing.  The traces below follow
the source operations in order and return the resulting last-axis size, or
none when torch raises. -/

/-- torch elementwise broadcasting of two last-axis sizes: equal sizes stay,
size 1 stretches to the other, anything else raises. -/
def bcastDim (a b : Nat) : Option Nat :=
  if a = b then some a else if a = 1 then some b else if b = 1 then some a else none

/-- Last-axis result of x[..., idx] for an index array with entries
0..maxIdx: valid iff maxIdx fits below the input size; the result size is the
index array length. -/
def indexDim (k idxLen maxIdx : Nat) : Option Nat :=
  if maxIdx < k then some idxLen else none

/-- Last-dimension trace of MeshVerticalLayer.transform: optional left
permutation gather, cc_mul against diag and off_diag (length N), the pairwise
gather, the sum, then the right permutation gather (always present on built
mesh layers). -/
def vlayer_transform_dim (N : Nat) (hasLeft : Bool) (k : Nat) : Option Nat :=
  match (if hasLeft then indexDim k N (N - 1) else some k) with
  | none => none
  | some k1 =>
    match bcastDim k1 N with
    | none => none
    | some kd =>
      match bcastDim k1 N with
      | none => none
      | some ko =>
        match indexDim ko N (N - 1) with
        | none => none
        | some kp =>
          match bcastDim kd kp with
          | none => none
          | some ks => indexDim ks N (N - 1)

/-- Last-dimension trace of MeshTorchLayer.transform: the input phase screen
multiply, then the layers in order (layer 0 has the left permutation). -/
def mesh_transform_dim (N L k : Nat) : Option Nat :=
  match bcastDim k N with
  | none => none
  | some k0 => (List.range L).foldlM (fun kk l => vlayer_transform_dim N (l == 0) kk) k0

/-- Last-dimension trace of MeshVerticalLayer.inverse_transform: right
permutation gather first, the conjugated couple, then the optional left
permutation gather. -/
def vlayer_inverse_dim (N : Nat) (hasLeft : Bool) (k : Nat) : Option Nat :=
  match indexDim k N (N - 1) with
  | none => none
  | some k1 =>
    match bcastDim k1 N with
    | none => none
    | some kd =>
      match bcastDim k1 N with
      | none => none
      | some ko =>
        match indexDim ko N (N - 1) with
        | none => none
        | some kp =>
          match bcastDim kd kp with
          | none => none
          | some ks => if hasLeft then indexDim ks N (N - 1) else some ks

/-- Last-dimension trace of MeshTorchLayer.inverse_transform: the layers in
reverse order, then the conjugated input phase screen multiply. -/
def mesh_inverse_dim (N L k : Nat) : Option Nat :=
  match (List.range L).reverse.foldlM (fun kk l => vlayer_inverse_dim N (l == 0) kk) k with
  | none => none
  | some k1 => bcastDim k1 N

/-! ## Shape/error-level model of MeshPhasesTorch.__init__ -/

/-- A 2-D numpy/torch shape (rows, columns). -/
structure Shape2 where
  r : Nat
  c : Nat
  deriving DecidableEq

/-- Dimension-wise broadcast of two 2-D shapes. -/
def bcast2 (a b : Shape2) : Option Shape2 :=
  match bcastDim a.r b.r, bcastDim a.c b.c with
  | some rr, some cc => some ⟨rr, cc⟩
  | _, _ => none

inductive PhasesErr
  | as_tensor_none
  | broadcast_mismatch
  | param_shape_mismatch
  deriving DecidableEq

/-- MeshPhasesTorch.__init__ at shape level.  The np.ones_like(theta)
fallback is assigned only to self.mask; the torch mask tensors are built from
the raw argument, so a None mask reaches torch.as_tensor, which raises
(modelled as as_tensor_none).  Each of theta and phi is masked by
`raw * torch_mask + torch_inv_mask * (1 - hadamard) * pi` — a broadcast with
the mask for the multiply and another for the add — and the final check
`self.theta.param.shape != self.phi.param.shape` compares the two masked raw
shapes, raising ValueError (param_shape_mismatch) when they differ. -/
def mesh_phases_init (theta phi : Shape2) (mask : Option Shape2) :
    Except PhasesErr (Shape2 × Shape2) :=
  match mask with
  | none => .error .as_tensor_none
  | some m =>
    match bcast2 theta m with
    | none => .error .broadcast_mismatch
    | some t1 =>
      match bcast2 t1 m with
      | none => .error .broadcast_mismatch
      | some t2 =>
        match bcast2 phi m with
        | none => .error .broadcast_mismatch
        | some p1 =>
          match bcast2 p1 m with
          | none => .error .broadcast_mismatch
          | some p2 => if t2 ≠ p2 then .error .param_shape_mismatch else .ok (t2, p2)

/-- The arranged [units, L] shape produced from a raw [L, M] parameter by
single_mode_arrangement. -/
def arranged_shape (units : Nat) (sh : Shape2) : Shape2 := ⟨units, sh.r⟩

/-! ## Theorems -/

theorem CPair.add_def (a b : CPair) : a + b = ⟨a.re + b.re, a.im + b.im⟩ := rfl

theorem CPair.sub_def (a b : CPair) : a - b = ⟨a.re - b.re, a.im - b.im⟩ := rfl

theorem foldl_update_of_ne {n : Nat} (p : Fin n → Fin n) (l : List (Fin n))
    (acc : Fin n → Fin n) (k : Fin n) (hk : ∀ j ∈ l, p j ≠ k) :
    (l.foldl (fun acc idx => Function.update acc (p idx) idx) acc) k = acc k := by
  induction l generalizing acc with
  | nil => rfl
  | cons h t ih =>
      simp only [List.foldl_cons]
      rw [ih _ (fun j hj => hk j (List.mem_cons_of_mem _ hj))]
      exact Function.update_noteq (fun he => hk h (List.mem_cons_self _ _) he.symm) _ _

theorem foldl_update_of_mem {n : Nat} (p : Fin n → Fin n) (hp : Function.Injective p)
    (l : List (Fin n)) (acc : Fin n → Fin n) (i : Fin n) (hi : i ∈ l) :
    (l.foldl (fun acc idx => Function.update acc (p idx) idx) acc) (p i) = i := by
  induction l generalizing acc with
  | nil => exact absurd hi (List.not_mem_nil i)
  | cons h t ih =>
      simp only [List.foldl_cons]
      by_cases hit : i ∈ t
      · exact ih _ hit
      · have hhi : h = i := by
          rcases List.mem_cons.mp hi with h1 | h2
          · exact h1.symm
          · exact absurd h2 hit
        subst hhi
        rw [foldl_update_of_ne p t _ (p h) (fun j hj he => hit (hp he ▸ hj))]
        simp

/-- The constructor's inverse array is a left inverse of an injective
permutation: inv[p[i]] = i. -/
theorem buildInv_apply {n : Nat} (p : Fin n → Fin n) (hp : Function.Injective p)
    (i : Fin n) : buildInv p (p i) = i :=
  foldl_update_of_mem p hp _ _ i (List.mem_finRange i)

/-- For a bijective permutation the constructor's inverse array is also a
right inverse: p[inv[j]] = j. -/
theorem buildInv_apply_right {n : Nat} (p : Fin n → Fin n) (hp : Function.Bijective p)
    (j : Fin n) : p (buildInv p j) = j := by
  obtain ⟨i, rfl⟩ := hp.2 j
  rw [buildInv_apply p hp.1]

/-- C2: for every PermutationLayer constructed from a permutation p of 0..N-1
and every tensor x whose last axis has length N,
inverse_transform(transform(x)) == x exactly, because the constructor
precomputes the inverse permutation with inv[p[i]] = i. -/
theorem c2_permutation_roundtrip {n : Nat} {α : Type} (p : Fin n → Fin n)
    (hp : Function.Bijective p) (x : Fin n → α) :
    (PermutationLayer.mk' p).inverse_transform ((PermutationLayer.mk' p).transform x) = x := by
  funext j
  show x (p (buildInv p j)) = x j
  rw [buildInv_apply_right p hp]

theorem c2_permutation_roundtrip_witness :
    (PermutationLayer.mk' (fun j : Fin 3 => j + 1)).inverse_transform
      ((PermutationLayer.mk' (fun j : Fin 3 => j + 1)).transform (fun j => j.val * 10)) =
      (fun j : Fin 3 => j.val * 10) :=
  c2_permutation_roundtrip (fun j : Fin 3 => j + 1) (by decide) _

theorem npset_isSome (arr : List Int) (i v : Int) :
    (npset arr i v).isSome ↔ -(arr.length : Int) ≤ i ∧ i < arr.length := by
  have hcond : (0 ≤ npwrap arr.length i ∧ npwrap arr.length i < arr.length) ↔
      (-(arr.length : Int) ≤ i ∧ i < arr.length) := by
    unfold npwrap
    split <;> omega
  unfold npset
  split
  · rename_i h
    exact iff_of_true rfl (hcond.mp h)
  · rename_i h
    exact iff_of_false (by simp) (fun hb => h (hcond.mpr hb))

theorem npset_length {arr out : List Int} {i v : Int} (h : npset arr i v = some out) :
    out.length = arr.length := by
  simp only [npset] at h
  split at h
  · cases h
    exact List.length_set ..
  · cases h

theorem init_loop_isSome (pairs : List (Nat × Int)) (acc : List Int) :
    (init_loop pairs acc).isSome ↔
      ∀ iv ∈ pairs, -(acc.length : Int) ≤ iv.2 ∧ iv.2 < acc.length := by
  induction pairs generalizing acc with
  | nil => simp [init_loop]
  | cons h t ih =>
      rw [init_loop]
      rcases ho : npset acc h.2 h.1 with _ | a
      · have hno : ¬(-(acc.length : Int) ≤ h.2 ∧ h.2 < acc.length) := by
          intro hb
          have hs := (npset_isSome acc h.2 h.1).mpr hb
          rw [ho] at hs
          simp at hs
        refine iff_of_false (by simp) ?_
        intro hall
        exact hno (hall h (List.mem_cons_self _ _))
      · have hb : -(acc.length : Int) ≤ h.2 ∧ h.2 < acc.length := by
          have hs := npset_isSome acc h.2 h.1
          rw [ho] at hs
          exact hs.mp rfl
        have hlen : a.length = acc.length := npset_length ho
        rw [ih a, hlen]
        constructor
        · intro hall iv hiv
          rcases List.mem_cons.mp hiv with rfl | hm
          · exact hb
          · exact hall iv hm
        · intro hall iv hiv
          exact hall iv (List.mem_cons_of_mem _ hiv)

/-- C3 (amended): the constructor performs no bijection validation.  It
succeeds exactly when every entry of the index array lies in the numpy-legal
range -N..N-1 (an entry outside that range raises a generic IndexError during
the inverse-write loop, not an InvalidPermutationError); in particular
duplicate in-range entries are accepted silently. -/
theorem c3_init_error_characterization (perm : List Int) :
    (permutation_layer_init perm).isSome ↔
      ∀ e ∈ perm, -(perm.length : Int) ≤ e ∧ e < perm.length := by
  unfold permutation_layer_init
  rw [Option.isSome_map']
  rw [init_loop_isSome, List.length_replicate]
  constructor
  · intro hall e he
    rw [← List.enum_map_snd perm] at he
    obtain ⟨iv, hiv, rfl⟩ := List.mem_map.mp he
    exact hall iv hiv
  · intro hall iv hiv
    refine hall iv.2 ?_
    rw [← List.enum_map_snd perm]
    exact List.mem_map_of_mem Prod.snd hiv

theorem c3_init_error_characterization_witness :
    (permutation_layer_init [1, -2, 0]).isSome = true ∧
      ¬(permutation_layer_init [2, 0]).isSome = true :=
  ⟨(c3_init_error_characterization [1, -2, 0]).mpr (by decide),
   fun hs => by
     have hall := (c3_init_error_characterization [2, 0]).mp hs
     revert hall
     decide⟩

/-- C3 counterexample: the non-bijective index array [0, 0] is accepted with
no error of any kind — the constructor returns normally with inverse array
[1, 0] — contradicting the claim that a non-bijection fails with an
InvalidPermutationError. -/
theorem c3_counterexample :
    permutation_layer_init [0, 0] = some ([0, 0], [1, 0]) := by decide

theorem pairwise_invol {N : Nat} (j : Fin N) :
    pairwise_off_diag_permutation N (pairwise_off_diag_permutation N j) = j := by
  apply Fin.ext
  have hv := j.isLt
  simp only [pairwise_off_diag_permutation]
  split_ifs <;> omega

/-- C9 (amended): the pairwise permutation array used by every
MeshVerticalLayer is an involution for every N, and it is fixed point-free
exactly when N is even; for odd N the final idle path is a fixed point. -/
theorem c9_pairwise_involution (N : Nat) :
    (∀ j : Fin N, pairwise_off_diag_permutation N (pairwise_off_diag_permutation N j) = j) ∧
      ((∀ j : Fin N, pairwise_off_diag_permutation N j ≠ j) ↔ N % 2 = 0) := by
  refine ⟨fun j => pairwise_invol j, ?_, ?_⟩
  · intro hnf
    by_contra ho
    have hN1 : N % 2 = 1 := by omega
    have hfix : pairwise_off_diag_permutation N ⟨N - 1, by omega⟩ = ⟨N - 1, by omega⟩ := by
      apply Fin.ext
      simp only [pairwise_off_diag_permutation]
      split_ifs <;> omega
    exact hnf ⟨N - 1, by omega⟩ hfix
  · intro hev j hfix
    have hv := j.isLt
    have hval := congrArg Fin.val hfix
    simp only [pairwise_off_diag_permutation] at hval
    split_ifs at hval <;> omega

theorem c9_pairwise_involution_witness :
    pairwise_off_diag_permutation 4 (pairwise_off_diag_permutation 4 1) = 1 ∧
      pairwise_off_diag_permutation 4 1 ≠ 1 :=
  ⟨(c9_pairwise_involution 4).1 1, (c9_pairwise_involution 4).2.mpr rfl 1⟩

/-- C9 counterexample: for N = 3 the pairwise permutation maps the idle last
path to itself, so it is not fixed point-free for every N. -/
theorem c9_counterexample :
    pairwise_off_diag_permutation 3 2 = 2 := by decide

theorem sma_foldl_of_ne {L units : Nat} (param : Fin L → Fin (units / 2) → ℝ)
    (ks : List (Fin (units / 2))) (acc : Fin units → Fin L → ℝ)
    (n : Fin units) (l : Fin L) (hk : ∀ k ∈ ks, 2 * k.val ≠ n.val) :
    (ks.foldl (fun acc k => fun n l => if n.val = 2 * k.val then param l k else acc n l) acc)
      n l = acc n l := by
  induction ks generalizing acc with
  | nil => rfl
  | cons h t ih =>
      simp only [List.foldl_cons]
      rw [ih _ (fun k hkt => hk k (List.mem_cons_of_mem _ hkt))]
      rw [if_neg (fun he => hk h (List.mem_cons_self _ _) he.symm)]

theorem sma_foldl_of_mem {L units : Nat} (param : Fin L → Fin (units / 2) → ℝ)
    (ks : List (Fin (units / 2))) (acc : Fin units → Fin L → ℝ)
    (n : Fin units) (l : Fin L) (k0 : Fin (units / 2)) (hk0 : k0 ∈ ks)
    (hn : n.val = 2 * k0.val) :
    (ks.foldl (fun acc k => fun n l => if n.val = 2 * k.val then param l k else acc n l) acc)
      n l = param l k0 := by
  induction ks generalizing acc with
  | nil => exact absurd hk0 (List.not_mem_nil k0)
  | cons h t ih =>
      simp only [List.foldl_cons]
      by_cases hkt : k0 ∈ t
      · exact ih _ hkt
      · have hh : h = k0 := by
          rcases List.mem_cons.mp hk0 with h1 | h2
          · exact h1.symm
          · exact absurd h2 hkt
        subst hh
        rw [sma_foldl_of_ne param t _ n l ?_]
        · rw [if_pos hn]
        · intro k hkmem he
          have : k = h := Fin.ext (by omega)
          exact hkt (this ▸ hkmem)

/-- Pointwise characterization of the arrangement: even rows with an in-range
half-index carry the transposed parameter, all other rows are zero. -/
theorem single_mode_arrangement_apply {L units : Nat}
    (param : Fin L → Fin (units / 2) → ℝ) (n : Fin units) (l : Fin L) :
    single_mode_arrangement units param n l =
      if h : n.val % 2 = 0 ∧ n.val / 2 < units / 2 then param l ⟨n.val / 2, h.2⟩ else 0 := by
  unfold single_mode_arrangement
  split
  · rename_i h
    refine sma_foldl_of_mem param _ _ n l ⟨n.val / 2, h.2⟩ (List.mem_finRange _) ?_
    show n.val = 2 * (n.val / 2)
    omega
  · rename_i h
    exact sma_foldl_of_ne param _ _ n l (fun k hk he => h (by have := k.isLt; omega))

/-- C6: for every raw [L, N/2] parameter, single_mode_arrangement is an
[N, L] array that is zero everywhere except that the transposed parameter
values occupy rows 0, 2, 4, ...: the full even stripe when N is even, and the
even stripe excluding the final row (which stays zero) when N is odd. -/
theorem c6_single_mode_stripe {L units : Nat}
    (param : Fin L → Fin (units / 2) → ℝ) (n : Fin units) (l : Fin L) :
    (n.val % 2 = 1 → single_mode_arrangement units param n l = 0) ∧
      (units % 2 = 1 → n.val = units - 1 → single_mode_arrangement units param n l = 0) ∧
      (∀ he : units % 2 = 0, ∀ hn : n.val % 2 = 0,
        single_mode_arrangement units param n l =
          param l ⟨n.val / 2, by have := n.isLt; omega⟩) ∧
      (∀ ho : units % 2 = 1, ∀ hn : n.val % 2 = 0, ∀ hne : n.val ≠ units - 1,
        single_mode_arrangement units param n l =
          param l ⟨n.val / 2, by have := n.isLt; omega⟩) := by
  refine ⟨?_, ?_, ?_, ?_⟩
  · intro h1
    rw [single_mode_arrangement_apply, dif_neg]
    intro hc
    omega
  · intro ho hlast
    rw [single_mode_arrangement_apply, dif_neg]
    intro hc
    have := n.isLt
    omega
  · intro he hn
    have hlt : n.val / 2 < units / 2 := by have := n.isLt; omega
    rw [single_mode_arrangement_apply, dif_pos ⟨hn, hlt⟩]
  · intro ho hn hne
    have hlt : n.val / 2 < units / 2 := by have := n.isLt; omega
    rw [single_mode_arrangement_apply, dif_pos ⟨hn, hlt⟩]

theorem c6_single_mode_stripe_witness :
    @single_mode_arrangement 1 3 (fun _ _ => (5 : ℝ)) 2 0 = 0 ∧
      @single_mode_arrangement 1 3 (fun _ _ => (5 : ℝ)) 0 0 = 5 :=
  ⟨(@c6_single_mode_stripe 1 3 (fun _ _ => (5 : ℝ)) 2 0).2.1 (by decide) (by decide),
   (@c6_single_mode_stripe 1 3 (fun _ _ => (5 : ℝ)) 0 0).2.2.2 (by decide) (by decide)
     (by decide)⟩

/-! ## Component lemmas for the complex-pair operations -/

@[simp] theorem CPair.re_mk (a b : ℝ) : (CPair.mk a b).re = a := rfl

@[simp] theorem CPair.im_mk (a b : ℝ) : (CPair.mk a b).im = b := rfl

@[simp] theorem CPair.add_re (a b : CPair) : (a + b).re = a.re + b.re := rfl

@[simp] theorem CPair.add_im (a b : CPair) : (a + b).im = a.im + b.im := rfl

@[simp] theorem CPair.sub_re (a b : CPair) : (a - b).re = a.re - b.re := rfl

@[simp] theorem CPair.sub_im (a b : CPair) : (a - b).im = a.im - b.im := rfl

@[simp] theorem CPair.neg_re (a : CPair) : (-a).re = -a.re := rfl

@[simp] theorem CPair.neg_im (a : CPair) : (-a).im = -a.im := rfl

@[simp] theorem cc_mul_re (a b : CPair) : (cc_mul a b).re = a.re * b.re - a.im * b.im := rfl

@[simp] theorem cc_mul_im (a b : CPair) : (cc_mul a b).im = a.re * b.im + a.im * b.re := rfl

@[simp] theorem rc_mul_re (r : ℝ) (c : CPair) : (rc_mul r c).re = r * c.re := rfl

@[simp] theorem rc_mul_im (r : ℝ) (c : CPair) : (rc_mul r c).im = r * c.im := rfl

@[simp] theorem s_mul_re (sr si : ℝ) (c : CPair) : (s_mul sr si c).re = sr * c.re + -si * c.im := rfl

@[simp] theorem s_mul_im (sr si : ℝ) (c : CPair) : (s_mul sr si c).im = sr * c.im + si * c.re := rfl

@[simp] theorem conj_t_re (c : CPair) : (conj_t c).re = c.re := rfl

@[simp] theorem conj_t_im (c : CPair) : (conj_t c).im = -c.im := rfl

@[simp] theorem cdiv2_re (c : CPair) : (cdiv2 c).re = c.re / 2 := rfl

@[simp] theorem cdiv2_im (c : CPair) : (cdiv2 c).im = c.im / 2 := rfl

theorem CPair.ext {a b : CPair} (hre : a.re = b.re) (him : a.im = b.im) : a = b := by
  cases a
  cases b
  cases hre
  cases him
  rfl

theorem couple_inverse {N : Nat} (d o : Fin N → CPair) (σ : Fin N → Fin N)
    (hσ : ∀ n, σ (σ n) = n)
    (hu : ∀ n, cc_mul (d n) (conj_t (d n)) + cc_mul (o n) (conj_t (o n)) = ⟨1, 0⟩ ∧
      cc_mul (conj_t (d n)) (o (σ n)) + cc_mul (conj_t (o n)) (d (σ n)) = ⟨0, 0⟩)
    (y : Fin N → CPair) :
    couple (fun n => conj_t (d n)) (fun n => conj_t (o (σ n))) σ
      (couple d o σ y) = y := by
  funext n
  obtain ⟨h1, h2⟩ := hu n
  have h1re := congrArg CPair.re h1
  have h1im := congrArg CPair.im h1
  have h2re := congrArg CPair.re h2
  have h2im := congrArg CPair.im h2
  simp only [CPair.add_re, CPair.add_im, cc_mul_re, cc_mul_im, conj_t_re, conj_t_im,
    CPair.re_mk, CPair.im_mk] at h1re h1im h2re h2im
  apply CPair.ext
  · simp only [couple, cc_mul_re, cc_mul_im, conj_t_re, conj_t_im, CPair.add_re,
      CPair.add_im, hσ]
    linear_combination (y n).re * h1re - (y n).im * h1im +
      (y (σ n)).re * h2re - (y (σ n)).im * h2im
  · simp only [couple, cc_mul_re, cc_mul_im, conj_t_re, conj_t_im, CPair.add_re,
      CPair.add_im, hσ]
    linear_combination (y n).im * h1re + (y n).re * h1im +
      (y (σ n)).im * h2re + (y (σ n)).re * h2im

theorem perm_layer_roundtrip {N : Nat} {α : Type*} (P : PermutationLayer N)
    (hb : Function.Bijective P.permuted_indices)
    (hinv : P.inv_permuted_indices = buildInv P.permuted_indices) (x : Fin N → α) :
    P.inverse_transform (P.transform x) = x := by
  funext j
  show x (P.permuted_indices (P.inv_permuted_indices j)) = x j
  rw [hinv, buildInv_apply_right _ hb]

theorem vlayer_roundtrip {N : Nat} (V : MeshVerticalLayer N)
    (hσ : ∀ n, V.pairwise_perm_idx (V.pairwise_perm_idx n) = n)
    (hu : LayerUnitary V)
    (hl : GoodPerm V.left_perm) (hr : GoodPerm V.right_perm) (x : Fin N → CPair) :
    V.inverse_transform (V.transform x) = x := by
  have hcore := couple_inverse V.diag V.off_diag V.pairwise_perm_idx hσ hu
  unfold MeshVerticalLayer.transform MeshVerticalLayer.inverse_transform
  rcases hr' : V.right_perm with _ | Pr <;> rcases hl' : V.left_perm with _ | Pl <;> dsimp only
  · exact hcore x
  · have hl2 : Function.Bijective Pl.permuted_indices ∧
        Pl.inv_permuted_indices = buildInv Pl.permuted_indices := by
      rw [hl'] at hl
      exact hl
    rw [hcore (Pl.transform x)]
    exact perm_layer_roundtrip Pl hl2.1 hl2.2 x
  · have hr2 : Function.Bijective Pr.permuted_indices ∧
        Pr.inv_permuted_indices = buildInv Pr.permuted_indices := by
      rw [hr'] at hr
      exact hr
    rw [perm_layer_roundtrip Pr hr2.1 hr2.2]
    exact hcore x
  · have hr2 : Function.Bijective Pr.permuted_indices ∧
        Pr.inv_permuted_indices = buildInv Pr.permuted_indices := by
      rw [hr'] at hr
      exact hr
    have hl2 : Function.Bijective Pl.permuted_indices ∧
        Pl.inv_permuted_indices = buildInv Pl.permuted_indices := by
      rw [hl'] at hl
      exact hl
    rw [perm_layer_roundtrip Pr hr2.1 hr2.2, hcore (Pl.transform x)]
    exact perm_layer_roundtrip Pl hl2.1 hl2.2 x

theorem layers_roundtrip {N : Nat} (layers : List (MeshVerticalLayer N)) :
    (∀ V ∈ layers, ∀ x, V.inverse_transform (V.transform x) = x) →
      ∀ x : Fin N → CPair,
        layers.reverse.foldl (fun acc V => V.inverse_transform acc)
          (layers.foldl (fun acc V => V.transform acc) x) = x := by
  induction layers with
  | nil =>
      intro h x
      rfl
  | cons V rest ih =>
      intro h x
      simp only [List.foldl_cons, List.reverse_cons, List.foldl_append, List.foldl_nil]
      rw [ih (fun W hW y => h W (List.mem_cons_of_mem _ hW) y) (V.transform x)]
      exact h V (List.mem_cons_self _ _) x

theorem gamma_roundtrip (g : ℝ) (a : CPair) :
    cc_mul (cc_mul a ⟨Real.cos g, Real.sin g⟩) (conj_t ⟨Real.cos g, Real.sin g⟩) = a := by
  have h := Real.sin_sq_add_cos_sq g
  apply CPair.ext
  · simp only [cc_mul_re, cc_mul_im, conj_t_re, conj_t_im, CPair.re_mk, CPair.im_mk]
    linear_combination a.re * h
  · simp only [cc_mul_re, cc_mul_im, conj_t_re, conj_t_im, CPair.re_mk, CPair.im_mk]
    linear_combination a.im * h

/-- C1 (amended): for every mesh with basis single_mode, bijective wiring
permutations, and error tensors that make every built coupling layer unitary
(the physical lossless condition: product-form splitter coefficients; the
parametrization enn=epp=cos(kappa), enp=-epn=sin(kappa) stated in the claim
does not achieve this, see the counterexample), inverse_transform composes
the conjugate layers in reverse order and reproduces the input exactly:
inverse_transform(transform(x)) = x. -/
theorem c1_unitary_roundtrip {N L : Nat} (P : MeshParams N L)
    (hbasis : P.basis = MeshBasis.single_mode)
    (hperm : ∀ k, Function.Bijective (P.perm_idx k))
    (hunit : ∀ V ∈ mesh_layers P (mk_phases P), LayerUnitary V)
    (x : Fin N → CPair) :
    mesh_inverse_transform P (mesh_transform P x) = x := by
  have hgood : ∀ V ∈ mesh_layers P (mk_phases P), ∀ y : Fin N → CPair,
      V.inverse_transform (V.transform y) = y := by
    intro V hV y
    have hVu := hunit V hV
    obtain ⟨l, hl, rfl⟩ := List.mem_map.mp hV
    refine vlayer_roundtrip _ (fun n => pairwise_invol n) hVu ?_ ?_ y
    · show GoodPerm (if l.val = 0 then some (PermutationLayer.mk' (P.perm_idx 0)) else none)
      by_cases h0 : l.val = 0
      · rw [if_pos h0]
        exact ⟨hperm 0, rfl⟩
      · rw [if_neg h0]
        trivial
    · exact ⟨hperm l.succ, rfl⟩
  unfold mesh_transform mesh_inverse_transform
  dsimp only
  rw [layers_roundtrip (mesh_layers P (mk_phases P)) hgood]
  funext n
  exact gamma_roundtrip (P.gamma n) (x n)

theorem ce_masked :
    masked_param (fun _ _ => (0 : ℝ)) (fun _ _ => (1 : ℝ)) false =
      (fun _ _ => (0 : ℝ) : Fin 1 → Fin 1 → ℝ) := by
  funext l m
  simp [masked_param]

theorem ce_ips_zero : internal_phase_shifts ceParams = fun _ _ => (0 : ℝ) := by
  funext n l
  show single_mode_arrangement 2
    (masked_param (fun _ _ => (0 : ℝ)) (fun _ _ => (1 : ℝ)) false) n l = 0
  rw [ce_masked, single_mode_arrangement_apply]
  split <;> rfl

theorem ce_eps_zero : external_phase_shifts ceParams = fun _ _ => (0 : ℝ) := by
  funext n l
  show single_mode_arrangement 2
    (masked_param (fun _ _ => (0 : ℝ)) (fun _ _ => (1 : ℝ)) false) n l = 0
  rw [ce_masked, single_mode_arrangement_apply]
  split <;> rfl

theorem ceParams_gamma : ceParams.gamma = fun _ => (0 : ℝ) := rfl

theorem ce_phases :
    mk_phases ceParams =
      { internal_psl := fun _ _ => ⟨1, 0⟩
        external_psl := fun _ _ => ⟨1, 0⟩
        input_phase_shift_layer := fun _ => ⟨1, 0⟩ } := by
  simp only [mk_phases, ce_ips_zero, ce_eps_zero, ceParams_gamma, Real.cos_zero, Real.sin_zero]

theorem ce_diag_zero (n : Fin 2) (l : Fin 1) :
    diag_layers ceParams (mk_phases ceParams) n l = ⟨0, 0⟩ := by
  have hn : ¬(2 % 2 = 1 ∧ n.val = 2 - 1) := by omega
  unfold diag_layers
  rw [if_neg hn]
  unfold diag_pre
  rw [ce_phases]
  show cdiv2 (cc_mul (⟨1, 0⟩ : CPair)
    (s11 ceParams _ n l + s22 ceParams _ n l)) = ⟨0, 0⟩
  have h11 : s11 ceParams
      { internal_psl := fun _ _ => (⟨1, 0⟩ : CPair)
        external_psl := fun _ _ => ⟨1, 0⟩
        input_phase_shift_layer := fun _ => ⟨1, 0⟩ } n l = ⟨0, 0⟩ := by
    show rc_mul 1 ⟨1, 0⟩ - rc_mul 1 ⟨1, 0⟩ = (⟨0, 0⟩ : CPair)
    apply CPair.ext <;> simp
  have h22 : s22 ceParams
      { internal_psl := fun _ _ => (⟨1, 0⟩ : CPair)
        external_psl := fun _ _ => ⟨1, 0⟩
        input_phase_shift_layer := fun _ => ⟨1, 0⟩ } n l = ⟨0, 0⟩ := by
    show -rc_mul 1 ⟨1, 0⟩ + rc_mul 1 ⟨1, 0⟩ = (⟨0, 0⟩ : CPair)
    apply CPair.ext <;> simp
  rw [h11, h22]
  apply CPair.ext <;> simp

theorem ce_off_zero (n : Fin 2) (l : Fin 1) :
    off_diag_layers ceParams (mk_phases ceParams) n l = ⟨0, 0⟩ := by
  unfold off_diag_layers
  rw [ce_phases]
  show cdiv2 (cc_mul (⟨1, 0⟩ : CPair)
    (s21 ceParams _ n l + s12 ceParams _ n l)) = ⟨0, 0⟩
  have h21 : s21 ceParams
      { internal_psl := fun _ _ => (⟨1, 0⟩ : CPair)
        external_psl := fun _ _ => ⟨1, 0⟩
        input_phase_shift_layer := fun _ => ⟨1, 0⟩ } n l = ⟨0, 0⟩ := by
    show s_mul 0 1 (rc_mul 0 ⟨1, 0⟩ + rc_mul 0 ⟨1, 0⟩) = (⟨0, 0⟩ : CPair)
    apply CPair.ext <;> simp
  have h12 : s12 ceParams
      { internal_psl := fun _ _ => (⟨1, 0⟩ : CPair)
        external_psl := fun _ _ => ⟨1, 0⟩
        input_phase_shift_layer := fun _ => ⟨1, 0⟩ } n l = ⟨0, 0⟩ := by
    show s_mul 0 1 (rc_mul 0 ⟨1, 0⟩ + rc_mul 0 ⟨1, 0⟩) = (⟨0, 0⟩ : CPair)
    apply CPair.ext <;> simp
  rw [h21, h12]
  apply CPair.ext <;> simp

theorem cc_mul_zero_right (a : CPair) : cc_mul a ⟨0, 0⟩ = ⟨0, 0⟩ := by
  apply CPair.ext <;> simp

theorem cc_mul_zero_left (a : CPair) : cc_mul ⟨0, 0⟩ a = ⟨0, 0⟩ := by
  apply CPair.ext <;> simp

theorem couple_zero_input {N : Nat} (d o : Fin N → CPair) (σ : Fin N → Fin N) :
    couple d o σ (fun _ => ⟨0, 0⟩) = fun _ => ⟨0, 0⟩ := by
  funext n
  unfold couple
  rw [cc_mul_zero_left, cc_mul_zero_left]
  apply CPair.ext <;> simp

theorem perm_inv_const {N : Nat} (P : PermutationLayer N) (c : CPair) :
    P.inverse_transform (fun _ => c) = fun _ => c := rfl

theorem vlayer_inverse_zero {N : Nat} (V : MeshVerticalLayer N) :
    V.inverse_transform (fun _ => (⟨0, 0⟩ : CPair)) = fun _ => ⟨0, 0⟩ := by
  unfold MeshVerticalLayer.inverse_transform
  rcases hr : V.right_perm with _ | Pr <;> rcases hl : V.left_perm with _ | Pl <;>
      dsimp only <;> simp only [perm_inv_const, couple_zero_input]

theorem layers_inverse_zero {N : Nat} (layers : List (MeshVerticalLayer N)) :
    layers.foldl (fun acc V => V.inverse_transform acc) (fun _ => (⟨0, 0⟩ : CPair)) =
      fun _ => ⟨0, 0⟩ := by
  induction layers with
  | nil => rfl
  | cons V rest ih =>
      rw [List.foldl_cons, vlayer_inverse_zero]
      exact ih

theorem ce_layers :
    mesh_layers ceParams (mk_phases ceParams) =
      [{ pairwise_perm_idx := pairwise_off_diag_permutation 2
         diag := fun n => diag_layers ceParams (mk_phases ceParams) n 0
         off_diag := fun n => off_diag_layers ceParams (mk_phases ceParams) n 0
         right_perm := some (PermutationLayer.mk' id)
         left_perm := some (PermutationLayer.mk' id) }] := rfl

theorem ce_transform_zero (x : Fin 2 → CPair) :
    mesh_transform ceParams x = fun _ => ⟨0, 0⟩ := by
  unfold mesh_transform
  dsimp only
  rw [ce_layers, List.foldl_cons, List.foldl_nil]
  unfold MeshVerticalLayer.transform
  dsimp only
  funext n
  simp only [PermutationLayer.transform, PermutationLayer.mk', id_eq, couple]
  rw [ce_diag_zero, ce_off_zero, cc_mul_zero_right, cc_mul_zero_right]
  apply CPair.ext <;> simp

theorem ce_roundtrip_zero (x : Fin 2 → CPair) :
    mesh_inverse_transform ceParams (mesh_transform ceParams x) = fun _ => ⟨0, 0⟩ := by
  rw [ce_transform_zero]
  unfold mesh_inverse_transform
  dsimp only
  rw [layers_inverse_zero]
  funext n
  rw [cc_mul_zero_left]

/-- C1 counterexample: with error tensors in the claimed unitary-coupling
form (kappa = 0: enn = epp = cos 0, enp = -epn = sin 0), basis single_mode
and all phases zero, the built layer annihilates every input, so
inverse_transform(transform(x)) is the zero batch row rather than x. -/
theorem c1_counterexample :
    mesh_inverse_transform ceParams
      (mesh_transform ceParams (fun _ => ⟨1, 0⟩)) ≠ fun _ => ⟨1, 0⟩ := by
  rw [ce_roundtrip_zero]
  intro h
  have h0 := congrArg (fun f => (f 0).re) h
  norm_num at h0

theorem w_ips_zero : internal_phase_shifts wParams = fun _ _ => (0 : ℝ) := by
  funext n l
  show single_mode_arrangement 2
    (masked_param (fun _ _ => (0 : ℝ)) (fun _ _ => (1 : ℝ)) false) n l = 0
  rw [ce_masked, single_mode_arrangement_apply]
  split <;> rfl

theorem w_eps_zero : external_phase_shifts wParams = fun _ _ => (0 : ℝ) := by
  funext n l
  show single_mode_arrangement 2
    (masked_param (fun _ _ => (0 : ℝ)) (fun _ _ => (1 : ℝ)) false) n l = 0
  rw [ce_masked, single_mode_arrangement_apply]
  split <;> rfl

theorem wParams_gamma : wParams.gamma = fun _ => (0 : ℝ) := rfl

theorem w_phases :
    mk_phases wParams =
      { internal_psl := fun _ _ => ⟨1, 0⟩
        external_psl := fun _ _ => ⟨1, 0⟩
        input_phase_shift_layer := fun _ => ⟨1, 0⟩ } := by
  simp only [mk_phases, w_ips_zero, w_eps_zero, wParams_gamma, Real.cos_zero, Real.sin_zero]

theorem w_epp_sum (n : Fin 2) :
    wParams.epp n 0 + wParams.epp (predF n) 0 = 2 := by
  fin_cases n <;> norm_num [wParams, predF]

theorem w_diag (n : Fin 2) (l : Fin 1) :
    diag_layers wParams (mk_phases wParams) n l = ⟨1, 0⟩ := by
  have hn : ¬(2 % 2 = 1 ∧ n.val = 2 - 1) := by omega
  unfold diag_layers
  rw [if_neg hn]
  unfold diag_pre
  rw [w_phases]
  show cdiv2 (cc_mul (⟨1, 0⟩ : CPair)
    (s11 wParams _ n l + s22 wParams _ n l)) = ⟨1, 0⟩
  have h11 : s11 wParams
      { internal_psl := fun _ _ => (⟨1, 0⟩ : CPair)
        external_psl := fun _ _ => ⟨1, 0⟩
        input_phase_shift_layer := fun _ => ⟨1, 0⟩ } n l = ⟨wParams.epp n 0, 0⟩ := by
    show rc_mul (wParams.epp n l) ⟨1, 0⟩ - rc_mul 0 ⟨1, 0⟩ = (⟨wParams.epp n 0, 0⟩ : CPair)
    have hl : l = 0 := Subsingleton.elim l 0
    subst hl
    apply CPair.ext <;> simp
  have h22 : s22 wParams
      { internal_psl := fun _ _ => (⟨1, 0⟩ : CPair)
        external_psl := fun _ _ => ⟨1, 0⟩
        input_phase_shift_layer := fun _ => ⟨1, 0⟩ } n l =
        ⟨wParams.epp (predF n) 0, 0⟩ := by
    show -rc_mul 0 ⟨1, 0⟩ + rc_mul (wParams.epp (predF n) l) ⟨1, 0⟩ =
      (⟨wParams.epp (predF n) 0, 0⟩ : CPair)
    have hl : l = 0 := Subsingleton.elim l 0
    subst hl
    apply CPair.ext <;> simp
  rw [h11, h22]
  have hsum := w_epp_sum n
  apply CPair.ext
  · simp only [cdiv2_re, cc_mul_re, cc_mul_im, CPair.add_re, CPair.add_im, CPair.re_mk,
      CPair.im_mk]
    linarith
  · simp only [cdiv2_im, cc_mul_re, cc_mul_im, CPair.add_re, CPair.add_im, CPair.re_mk,
      CPair.im_mk]
    ring

theorem w_off (n : Fin 2) (l : Fin 1) :
    off_diag_layers wParams (mk_phases wParams) n l = ⟨0, 0⟩ := by
  unfold off_diag_layers
  rw [w_phases]
  show cdiv2 (cc_mul (⟨1, 0⟩ : CPair)
    (s21 wParams _ n l + s12 wParams _ n l)) = ⟨0, 0⟩
  have h21 : s21 wParams
      { internal_psl := fun _ _ => (⟨1, 0⟩ : CPair)
        external_psl := fun _ _ => ⟨1, 0⟩
        input_phase_shift_layer := fun _ => ⟨1, 0⟩ } n l = ⟨0, 0⟩ := by
    show s_mul 0 1 (rc_mul 0 ⟨1, 0⟩ + rc_mul 0 ⟨1, 0⟩) = (⟨0, 0⟩ : CPair)
    apply CPair.ext <;> simp
  have h12 : s12 wParams
      { internal_psl := fun _ _ => (⟨1, 0⟩ : CPair)
        external_psl := fun _ _ => ⟨1, 0⟩
        input_phase_shift_layer := fun _ => ⟨1, 0⟩ } n l = ⟨0, 0⟩ := by
    show s_mul 0 1 (rc_mul 0 ⟨1, 0⟩ + rc_mul 0 ⟨1, 0⟩) = (⟨0, 0⟩ : CPair)
    apply CPair.ext <;> simp
  rw [h21, h12]
  apply CPair.ext <;> simp

theorem w_layers :
    mesh_layers wParams (mk_phases wParams) =
      [{ pairwise_perm_idx := pairwise_off_diag_permutation 2
         diag := fun n => diag_layers wParams (mk_phases wParams) n 0
         off_diag := fun n => off_diag_layers wParams (mk_phases wParams) n 0
         right_perm := some (PermutationLayer.mk' id)
         left_perm := some (PermutationLayer.mk' id) }] := rfl

theorem w_layers_unitary :
    ∀ V ∈ mesh_layers wParams (mk_phases wParams), LayerUnitary V := by
  intro V hV
  rw [w_layers, List.mem_singleton] at hV
  subst hV
  intro n
  dsimp only
  rw [w_diag, w_off, w_diag, w_off]
  constructor
  · apply CPair.ext <;> simp
  · apply CPair.ext <;> simp

theorem c1_unitary_roundtrip_witness :
    mesh_inverse_transform wParams (mesh_transform wParams (fun _ => ⟨1, 0⟩)) =
      fun _ => ⟨1, 0⟩ :=
  c1_unitary_roundtrip wParams rfl (fun _ => Function.bijective_id) w_layers_unitary _

theorem cc_mul_one_right (a : CPair) : cc_mul a ⟨1, 0⟩ = a := by
  apply CPair.ext <;> simp

theorem CPair.add_zero (a : CPair) : a + ⟨0, 0⟩ = a := by
  apply CPair.ext <;> simp

/-- For odd N and error tensors arranged in the cell stripe (zero on odd rows
and on the idle last row, as the spec's per-cell [L, N/2] tensors induce),
the off-diagonal entry built on the last path vanishes. -/
theorem off_diag_last_zero {N L : Nat} (P : MeshParams N L) (hodd : N % 2 = 1)
    (hstripe : ∀ n : Fin N, ∀ l : Fin L, (n.val % 2 = 1 ∨ n.val = N - 1) →
      P.enn n l = 0 ∧ P.enp n l = 0 ∧ P.epn n l = 0 ∧ P.epp n l = 0)
    (l : Fin L) :
    off_diag_layers P (mk_phases P) ⟨N - 1, by omega⟩ l = ⟨0, 0⟩ := by
  obtain ⟨hnn, hnp, hpn, hpp⟩ := hstripe ⟨N - 1, by omega⟩ l (Or.inr rfl)
  have hpredc : (predF (⟨N - 1, by omega⟩ : Fin N)).val % 2 = 1 ∨
      (predF (⟨N - 1, by omega⟩ : Fin N)).val = N - 1 := by
    show ((N - 1 + (N - 1)) % N) % 2 = 1 ∨ (N - 1 + (N - 1)) % N = N - 1
    rcases Nat.lt_or_ge N 2 with h1 | h2
    · have hN1 : N = 1 := by omega
      subst hN1
      right
      rfl
    · rw [show N - 1 + (N - 1) = N + (N - 2) by omega, Nat.add_mod_left,
        Nat.mod_eq_of_lt (show N - 2 < N by omega)]
      left
      omega
  obtain ⟨hnn2, hnp2, hpn2, hpp2⟩ := hstripe (predF ⟨N - 1, by omega⟩) l hpredc
  unfold off_diag_layers
  have h21 : s21 P (mk_phases P) ⟨N - 1, by omega⟩ l = ⟨0, 0⟩ := by
    unfold s21
    split <;> dsimp only <;> rw [hpn, hnp] <;> apply CPair.ext <;> simp
  have h12 : s12 P (mk_phases P) ⟨N - 1, by omega⟩ l = ⟨0, 0⟩ := by
    unfold s12
    split <;> dsimp only <;> rw [hnp2, hpn2] <;> apply CPair.ext <;> simp
  rw [h21, h12]
  rw [show (⟨0, 0⟩ : CPair) + ⟨0, 0⟩ = ⟨0, 0⟩ by apply CPair.ext <;> simp]
  rw [cc_mul_zero_right]
  apply CPair.ext <;> simp

/-- C7: when units is odd, every built mesh layer carries exactly 1+0i as the
last path's diagonal entry, and the coupling step of transform (the part
between the surrounding permutations) leaves the last path's value unchanged:
the pairwise permutation fixes the idle path and its off-diagonal entry is
zero for stripe-arranged error tensors. -/
theorem c7_idle_path {N L : Nat} (P : MeshParams N L) (hodd : N % 2 = 1)
    (hstripe : ∀ n : Fin N, ∀ l : Fin L, (n.val % 2 = 1 ∨ n.val = N - 1) →
      P.enn n l = 0 ∧ P.enp n l = 0 ∧ P.epn n l = 0 ∧ P.epp n l = 0) :
    ∀ V ∈ mesh_layers P (mk_phases P),
      V.diag ⟨N - 1, by omega⟩ = ⟨1, 0⟩ ∧
        ∀ x : Fin N → CPair,
          couple V.diag V.off_diag V.pairwise_perm_idx x ⟨N - 1, by omega⟩ =
            x ⟨N - 1, by omega⟩ := by
  intro V hV
  obtain ⟨l, hl, rfl⟩ := List.mem_map.mp hV
  dsimp only
  have hdiag : diag_layers P (mk_phases P) ⟨N - 1, by omega⟩ l = ⟨1, 0⟩ := by
    unfold diag_layers
    rw [if_pos ⟨hodd, rfl⟩]
  have hfix : pairwise_off_diag_permutation N ⟨N - 1, by omega⟩ =
      ⟨N - 1, by omega⟩ := by
    apply Fin.ext
    simp only [pairwise_off_diag_permutation]
    split_ifs <;> omega
  refine ⟨hdiag, ?_⟩
  intro x
  unfold couple
  dsimp only
  rw [hfix, hdiag, off_diag_last_zero P hodd hstripe l, cc_mul_one_right,
    cc_mul_zero_right, CPair.add_zero]

theorem c7_layers :
    mesh_layers c7Params (mk_phases c7Params) =
      [{ pairwise_perm_idx := pairwise_off_diag_permutation 3
         diag := fun n => diag_layers c7Params (mk_phases c7Params) n 0
         off_diag := fun n => off_diag_layers c7Params (mk_phases c7Params) n 0
         right_perm := some (PermutationLayer.mk' id)
         left_perm := some (PermutationLayer.mk' id) }] := rfl

theorem c7_idle_path_witness :
    diag_layers c7Params (mk_phases c7Params) ⟨2, by omega⟩ 0 = ⟨1, 0⟩ ∧
      couple (fun n => diag_layers c7Params (mk_phases c7Params) n 0)
        (fun n => off_diag_layers c7Params (mk_phases c7Params) n 0)
        (pairwise_off_diag_permutation 3) (fun _ => ⟨7, 3⟩) ⟨2, by omega⟩ = ⟨7, 3⟩ := by
  have h := c7_idle_path c7Params rfl (fun _ _ _ => ⟨rfl, rfl, rfl, rfl⟩)
    { pairwise_perm_idx := pairwise_off_diag_permutation 3
      diag := fun n => diag_layers c7Params (mk_phases c7Params) n 0
      off_diag := fun n => off_diag_layers c7Params (mk_phases c7Params) n 0
      right_perm := some (PermutationLayer.mk' id)
      left_perm := some (PermutationLayer.mk' id) }
    (by rw [c7_layers]; exact List.mem_singleton.mpr rfl)
  exact ⟨h.1, h.2 (fun _ => ⟨7, 3⟩)⟩

theorem masked_param_eq {L M : Nat} (raw1 raw2 mask : Fin L → Fin M → ℝ) (hadamard : Bool)
    (hmask : ∀ l m, mask l m = 0 ∨ mask l m = 1)
    (hagree : ∀ l m, mask l m = 1 → raw1 l m = raw2 l m) :
    masked_param raw1 mask hadamard = masked_param raw2 mask hadamard := by
  funext l m
  unfold masked_param
  rcases hmask l m with h0 | h1
  · rw [h0]
    ring
  · rw [h1, hagree l m h1]

/-- C8: for binary masks, the transform output is identical across any two
values of the raw theta/phi entries at masked-out cells (mask = 0): the
masked entry is replaced by the fixed phase (1-hadamard)*pi at arrangement
time, before any use. -/
theorem c8_masked_cells_inert {N L : Nat} (P : MeshParams N L)
    (theta2 phi2 : Fin L → Fin (N / 2) → ℝ)
    (hmask : ∀ l m, P.mask l m = 0 ∨ P.mask l m = 1)
    (hagree : ∀ l m, P.mask l m = 1 → P.theta l m = theta2 l m ∧ P.phi l m = phi2 l m)
    (x : Fin N → CPair) :
    mesh_transform { P with theta := theta2, phi := phi2 } x = mesh_transform P x := by
  have ht : masked_param theta2 P.mask P.hadamard =
      masked_param P.theta P.mask P.hadamard :=
    (masked_param_eq P.theta theta2 P.mask P.hadamard hmask
      (fun l m hm => (hagree l m hm).1)).symm
  have hp : masked_param phi2 P.mask P.hadamard =
      masked_param P.phi P.mask P.hadamard :=
    (masked_param_eq P.phi phi2 P.mask P.hadamard hmask
      (fun l m hm => (hagree l m hm).2)).symm
  have hips : internal_phase_shifts { P with theta := theta2, phi := phi2 } =
      internal_phase_shifts P := by
    funext n l
    unfold internal_phase_shifts
    cases hB : P.basis <;> simp only [hB] <;> rw [ht]
  have heps : external_phase_shifts { P with theta := theta2, phi := phi2 } =
      external_phase_shifts P := by
    funext n l
    unfold external_phase_shifts
    dsimp only
    rw [hp]
  have hphases : mk_phases { P with theta := theta2, phi := phi2 } = mk_phases P := by
    unfold mk_phases
    rw [hips, heps]
  unfold mesh_transform
  dsimp only
  rw [hphases]
  rfl

theorem c8_masked_cells_inert_witness :
    mesh_transform { c8Params with theta := fun _ _ => 9, phi := fun _ _ => 9 }
        (fun _ => ⟨1, 0⟩) =
      mesh_transform c8Params (fun _ => ⟨1, 0⟩) :=
  c8_masked_cells_inert c8Params (fun _ _ => 9) (fun _ _ => 9)
    (fun _ _ => Or.inl rfl) (fun l m hm => absurd hm (by norm_num [c8Params])) _

theorem bcastDim_some {a b s : Nat} (h : bcastDim a b = some s) :
    (a = b ∧ s = a) ∨ (a = 1 ∧ s = b) ∨ (b = 1 ∧ s = a) := by
  unfold bcastDim at h
  split_ifs at h with h1 h2 h3
  · injection h with h4
    exact Or.inl ⟨h1, h4.symm⟩
  · injection h with h4
    exact Or.inr (Or.inl ⟨h2, h4.symm⟩)
  · injection h with h4
    exact Or.inr (Or.inr ⟨h3, h4.symm⟩)

theorem vlayer_transform_dim_fix {N : Nat} (hN : 1 ≤ N) (b : Bool) :
    vlayer_transform_dim N b N = some N := by
  have h : N - 1 < N := by omega
  cases b <;> simp [vlayer_transform_dim, indexDim, bcastDim, h]

theorem foldlM_vdim_fix {N : Nat} (hN : 1 ≤ N) (l : List Nat) :
    (l.foldlM (fun kk i => vlayer_transform_dim N (i == 0) kk) N : Option Nat) = some N := by
  induction l with
  | nil => rfl
  | cons a t ih =>
      rw [List.foldlM_cons, vlayer_transform_dim_fix hN]
      exact ih

theorem vlayer_inverse_dim_ge {N k : Nat} (hN : 1 ≤ N) (hk : N ≤ k) (b : Bool) :
    vlayer_inverse_dim N b k = some N := by
  have h : N - 1 < k := by omega
  have h2 : N - 1 < N := by omega
  cases b <;> simp [vlayer_inverse_dim, indexDim, bcastDim, h, h2]

theorem vlayer_inverse_dim_lt {N k : Nat} (hk : k < N) (b : Bool) :
    vlayer_inverse_dim N b k = none := by
  have h : ¬(N - 1 < k) := by omega
  simp [vlayer_inverse_dim, indexDim, h]

theorem foldlM_vinv_fix {N : Nat} (hN : 1 ≤ N) (l : List Nat) :
    (l.foldlM (fun kk i => vlayer_inverse_dim N (i == 0) kk) N : Option Nat) = some N := by
  induction l with
  | nil => rfl
  | cons a t ih =>
      rw [List.foldlM_cons, vlayer_inverse_dim_ge hN le_rfl]
      exact ih

theorem bcastDim_one_left {N : Nat} (hN : 2 ≤ N) : bcastDim 1 N = some N := by
  unfold bcastDim
  rw [if_neg (by omega), if_pos rfl]

theorem bcastDim_self (N : Nat) : bcastDim N N = some N := by
  unfold bcastDim
  rw [if_pos rfl]

/-- C4 (amended): for units N >= 2 and at least one layer, transform succeeds
exactly when the input's last-axis size is N or 1 — a size-1 axis broadcasts
silently instead of raising — and inverse_transform succeeds exactly when the
size is at least N: smaller sizes fail in the first permutation gather, while
larger ones are silently truncated by it.  A size equal to units never
raises, in either direction. -/
theorem c4_dim_characterization (N L k : Nat) (hN : 2 ≤ N) (hL : 1 ≤ L) :
    ((mesh_transform_dim N L k).isSome ↔ (k = 1 ∨ k = N)) ∧
      ((mesh_inverse_dim N L k).isSome ↔ N ≤ k) := by
  constructor
  · unfold mesh_transform_dim
    rcases hb : bcastDim k N with _ | k0
    · refine iff_of_false (by simp) ?_
      intro hk
      rcases hk with hk1 | hk1
      · rw [hk1, bcastDim_one_left hN] at hb
        cases hb
      · rw [hk1, bcastDim_self N] at hb
        cases hb
    · have hk0 : k0 = N := by
        rcases bcastDim_some hb with ⟨h1, h2⟩ | ⟨h1, h2⟩ | ⟨h1, h2⟩ <;> omega
      dsimp only
      rw [hk0, foldlM_vdim_fix (by omega)]
      refine iff_of_true rfl ?_
      rcases bcastDim_some hb with ⟨h1, h2⟩ | ⟨h1, h2⟩ | ⟨h1, h2⟩
      · exact Or.inr h1
      · exact Or.inl h1
      · omega
  · unfold mesh_inverse_dim
    have hne : (List.range L).reverse ≠ [] := by
      intro hnil
      have hlen := congrArg List.length hnil
      simp only [List.length_reverse, List.length_range, List.length_nil] at hlen
      omega
    cases hat : (List.range L).reverse with
    | nil => exact absurd hat hne
    | cons a t =>
        rcases Nat.lt_or_ge k N with hk | hk
        · rw [List.foldlM_cons, vlayer_inverse_dim_lt hk]
          refine iff_of_false ?_ (by omega)
          intro hfalse
          rw [show ((none : Option Nat) >>= fun kk =>
              List.foldlM (fun kk i => vlayer_inverse_dim N (i == 0) kk) kk t) = none
            from rfl] at hfalse
          exact Bool.noConfusion hfalse
        · rw [List.foldlM_cons, vlayer_inverse_dim_ge (by omega) hk]
          rw [show ((some N : Option Nat) >>= fun kk =>
              List.foldlM (fun kk i => vlayer_inverse_dim N (i == 0) kk) kk t) =
              List.foldlM (fun kk i => vlayer_inverse_dim N (i == 0) kk) N t from rfl]
          rw [foldlM_vinv_fix (by omega)]
          dsimp only
          rw [bcastDim_self]
          exact iff_of_true rfl hk

/-- C4 counterexample: with units 2 and one layer, an input whose last-axis
size is 1 (not equal to units) passes through transform with no error at all:
the size-1 axis broadcasts against the phase tensors. -/
theorem c4_counterexample : (mesh_transform_dim 2 1 1).isSome = true := by decide

theorem c4_dim_characterization_witness :
    (mesh_transform_dim 2 1 2).isSome = true ∧
      ¬(mesh_inverse_dim 2 1 1).isSome = true :=
  ⟨(c4_dim_characterization 2 1 2 (by norm_num) (by norm_num)).1.mpr (Or.inr rfl),
   fun h => by
     have hge := (c4_dim_characterization 2 1 1 (by norm_num) (by norm_num)).2.mp h
     omega⟩

theorem bcastDim_stable {a b s : Nat} (h : bcastDim a b = some s) :
    bcastDim s b = some s := by
  rcases bcastDim_some h with ⟨h1, h2⟩ | ⟨h1, h2⟩ | ⟨h1, h2⟩ <;> subst h2 <;> subst h1 <;>
    unfold bcastDim <;> split_ifs <;> first | rfl | omega

theorem bcast2_stable {a b s : Shape2} (h : bcast2 a b = some s) :
    bcast2 s b = some s := by
  unfold bcast2 at h ⊢
  rcases hr : bcastDim a.r b.r with _ | rr <;> rw [hr] at h
  · cases h
  · rcases hc : bcastDim a.c b.c with _ | cc <;> rw [hc] at h
    · cases h
    · injection h with h2
      subst h2
      rw [bcastDim_stable hr, bcastDim_stable hc]

/-- C5 (amended): MeshPhases construction (with a non-None mask) succeeds iff
theta and phi broadcast against the mask to the same raw shape; the
ParameterShapeMismatchError compares these masked raw [L, M] shapes, not the
arranged [units, L] shapes. -/
theorem c5_mismatch_characterization (theta phi m : Shape2) :
    (mesh_phases_init theta phi (some m)).isOk = true ↔
      (∃ u, bcast2 theta m = some u ∧ bcast2 phi m = some u) := by
  rcases ht : bcast2 theta m with _ | t1 <;> rcases hp : bcast2 phi m with _ | p1
  · simp only [mesh_phases_init, ht, hp]
    refine iff_of_false (by simp [Except.isOk, Except.toBool]) ?_
    rintro ⟨u, hu, -⟩
    cases hu
  · simp only [mesh_phases_init, ht, hp]
    refine iff_of_false (by simp [Except.isOk, Except.toBool]) ?_
    rintro ⟨u, hu, -⟩
    cases hu
  · simp only [mesh_phases_init, ht, hp, bcast2_stable ht]
    refine iff_of_false (by simp [Except.isOk, Except.toBool]) ?_
    rintro ⟨u, -, hu⟩
    cases hu
  · simp only [mesh_phases_init, ht, hp, bcast2_stable ht, bcast2_stable hp]
    by_cases he : t1 = p1
    · subst he
      rw [if_neg (by simp)]
      refine iff_of_true (by simp [Except.isOk, Except.toBool]) ⟨t1, rfl, rfl⟩
    · rw [if_pos he]
      refine iff_of_false (by simp [Except.isOk, Except.toBool]) ?_
      rintro ⟨u, h1, h2⟩
      injection h1 with h1
      injection h2 with h2
      exact he (h1.trans h2.symm)

theorem c5_mismatch_characterization_witness :
    (mesh_phases_init ⟨2, 1⟩ ⟨2, 1⟩ (some ⟨2, 1⟩)).isOk = true :=
  (c5_mismatch_characterization ⟨2, 1⟩ ⟨2, 1⟩ ⟨2, 1⟩).mpr ⟨⟨2, 1⟩, by decide, by decide⟩

/-- C5 counterexample: theta of raw shape (2, 3) and phi of raw shape (2, 2)
with a broadcastable mask (2, 1) have equal arranged [units, L] shapes
(units, 2), yet construction raises the shape-mismatch ValueError — the check
compares raw masked shapes, not arranged shapes. -/
theorem c5_counterexample :
    mesh_phases_init ⟨2, 3⟩ ⟨2, 2⟩ (some ⟨2, 1⟩) =
        Except.error PhasesErr.param_shape_mismatch ∧
      arranged_shape 6 ⟨2, 3⟩ = arranged_shape 6 ⟨2, 2⟩ := by
  constructor
  · rfl
  · rfl

/-- C10: constructing MeshPhasesTorch with mask=None always raises: the
np.ones_like fallback is assigned only to self.mask, while the torch mask
tensors are built from the raw None argument, which torch.as_tensor rejects.
The mask parameter is effectively mandatory at the public interface. -/
theorem c10_none_mask_raises (theta phi : Shape2) :
    mesh_phases_init theta phi none = Except.error PhasesErr.as_tensor_none := rfl

theorem fin2_succF_0 : succF (0 : Fin 2) = 1 := rfl

theorem fin2_succF_1 : succF (1 : Fin 2) = 0 := rfl

theorem fin2_predF_0 : predF (0 : Fin 2) = 1 := rfl

theorem fin2_predF_1 : predF (1 : Fin 2) = 0 := rfl

theorem int_psl_one {L : Nat} (P : MeshParams 2 L) (l : Fin L)
    (h : internal_phase_shifts P 1 l = 0) :
    (mk_phases P).internal_psl 1 l = ⟨1, 0⟩ := by
  show (⟨Real.cos (internal_phase_shifts P 1 l), Real.sin (internal_phase_shifts P 1 l)⟩ :
    CPair) = ⟨1, 0⟩
  rw [h, Real.cos_zero, Real.sin_zero]

theorem ext_psl_one {L : Nat} (P : MeshParams 2 L) (l : Fin L)
    (h : external_phase_shifts P 1 l = 0) :
    (mk_phases P).external_psl 1 l = ⟨1, 0⟩ := by
  show (⟨Real.cos (external_phase_shifts P 1 l), Real.sin (external_phase_shifts P 1 l)⟩ :
    CPair) = ⟨1, 0⟩
  rw [h, Real.cos_zero, Real.sin_zero]

/-- With basis single_mode the arranged internal phase on the odd path of a
two-path mesh is zero (the stripe writes only row 0). -/
theorem int_phase_odd_zero {L : Nat} (P : MeshParams 2 L)
    (hb : P.basis = MeshBasis.single_mode) (l : Fin L) :
    internal_phase_shifts P 1 l = 0 := by
  unfold internal_phase_shifts
  rw [hb]
  dsimp only
  rw [single_mode_arrangement_apply]
  rw [dif_neg]
  intro hc
  have := hc.1
  norm_num at this

theorem ext_phase_odd_zero {L : Nat} (P : MeshParams 2 L) (l : Fin L) :
    external_phase_shifts P 1 l = 0 := by
  unfold external_phase_shifts
  rw [single_mode_arrangement_apply]
  rw [dif_neg]
  intro hc
  have := hc.1
  norm_num at this

theorem two_d0 {L : Nat} (P : MeshParams 2 L) (k1 k2 : Fin L → ℝ)
    (hh : P.hadamard = false) (hb : P.basis = MeshBasis.single_mode) (l : Fin L)
    (hepp : P.epp = fun n l => if n.val = 0 then 2 * Real.cos (k1 l) * Real.cos (k2 l) else 0)
    (henn : P.enn = fun n l => if n.val = 0 then 2 * Real.sin (k1 l) * Real.sin (k2 l) else 0) :
    diag_layers P (mk_phases P) 0 l =
      cc_mul ⟨Real.cos (external_phase_shifts P 0 l), Real.sin (external_phase_shifts P 0 l)⟩
        ⟨Real.cos (k1 l) * Real.cos (k2 l) * Real.cos (internal_phase_shifts P 0 l) -
            Real.sin (k1 l) * Real.sin (k2 l),
          Real.cos (k1 l) * Real.cos (k2 l) * Real.sin (internal_phase_shifts P 0 l)⟩ := by
  have h1 := int_psl_one P l (int_phase_odd_zero P hb l)
  unfold diag_layers
  rw [if_neg (by decide : ¬((2 : Nat) % 2 = 1 ∧ ((0 : Fin 2)).val = 2 - 1))]
  unfold diag_pre s11 s22
  rw [hh]
  simp only [Bool.false_eq_true, if_false]
  rw [fin2_succF_0, fin2_predF_0, fin2_succF_1, h1, hepp, henn]
  apply CPair.ext <;>
    simp [mk_phases, cc_mul, rc_mul, cdiv2, CPair.add_def, CPair.sub_def] <;> ring

theorem two_d1 {L : Nat} (P : MeshParams 2 L) (k1 k2 : Fin L → ℝ)
    (hh : P.hadamard = false) (hb : P.basis = MeshBasis.single_mode) (l : Fin L)
    (hepp : P.epp = fun n l => if n.val = 0 then 2 * Real.cos (k1 l) * Real.cos (k2 l) else 0)
    (henn : P.enn = fun n l => if n.val = 0 then 2 * Real.sin (k1 l) * Real.sin (k2 l) else 0) :
    diag_layers P (mk_phases P) 1 l =
      ⟨Real.cos (k1 l) * Real.cos (k2 l) -
          Real.sin (k1 l) * Real.sin (k2 l) * Real.cos (internal_phase_shifts P 0 l),
        -(Real.sin (k1 l) * Real.sin (k2 l) * Real.sin (internal_phase_shifts P 0 l))⟩ := by
  have h1 := int_psl_one P l (int_phase_odd_zero P hb l)
  have h2 := ext_psl_one P l (ext_phase_odd_zero P l)
  unfold diag_layers
  rw [if_neg (by decide : ¬((2 : Nat) % 2 = 1 ∧ ((1 : Fin 2)).val = 2 - 1))]
  unfold diag_pre s11 s22
  rw [hh]
  simp only [Bool.false_eq_true, if_false]
  rw [fin2_succF_1, fin2_predF_1, fin2_succF_0, h1, h2, hepp, henn]
  apply CPair.ext <;>
    simp [mk_phases, cc_mul, rc_mul, cdiv2, CPair.add_def, CPair.sub_def] <;> ring

theorem two_o0 {L : Nat} (P : MeshParams 2 L) (k1 k2 : Fin L → ℝ)
    (hh : P.hadamard = false) (hb : P.basis = MeshBasis.single_mode) (l : Fin L)
    (henp : P.enp = fun n l => if n.val = 0 then 2 * Real.sin (k1 l) * Real.cos (k2 l) else 0)
    (hepn : P.epn = fun n l => if n.val = 0 then 2 * Real.cos (k1 l) * Real.sin (k2 l) else 0) :
    off_diag_layers P (mk_phases P) 0 l =
      ⟨-(Real.cos (k1 l) * Real.sin (k2 l) * Real.sin (internal_phase_shifts P 0 l)),
        Real.cos (k1 l) * Real.sin (k2 l) * Real.cos (internal_phase_shifts P 0 l) +
          Real.sin (k1 l) * Real.cos (k2 l)⟩ := by
  have h1 := int_psl_one P l (int_phase_odd_zero P hb l)
  have h2 := ext_psl_one P l (ext_phase_odd_zero P l)
  unfold off_diag_layers
  unfold s21 s12
  rw [hh]
  simp only [Bool.false_eq_true, if_false]
  rw [fin2_succF_0, fin2_predF_0, fin2_succF_1, h1, h2, henp, hepn]
  apply CPair.ext <;>
    simp [mk_phases, cc_mul, rc_mul, s_mul, cdiv2, CPair.add_def, CPair.sub_def] <;> ring

theorem two_o1 {L : Nat} (P : MeshParams 2 L) (k1 k2 : Fin L → ℝ)
    (hh : P.hadamard = false) (hb : P.basis = MeshBasis.single_mode) (l : Fin L)
    (henp : P.enp = fun n l => if n.val = 0 then 2 * Real.sin (k1 l) * Real.cos (k2 l) else 0)
    (hepn : P.epn = fun n l => if n.val = 0 then 2 * Real.cos (k1 l) * Real.sin (k2 l) else 0) :
    off_diag_layers P (mk_phases P) 1 l =
      cc_mul ⟨Real.cos (external_phase_shifts P 0 l), Real.sin (external_phase_shifts P 0 l)⟩
        ⟨-(Real.sin (k1 l) * Real.cos (k2 l) * Real.sin (internal_phase_shifts P 0 l)),
          Real.sin (k1 l) * Real.cos (k2 l) * Real.cos (internal_phase_shifts P 0 l) +
            Real.cos (k1 l) * Real.sin (k2 l)⟩ := by
  have h1 := int_psl_one P l (int_phase_odd_zero P hb l)
  unfold off_diag_layers
  unfold s21 s12
  rw [hh]
  simp only [Bool.false_eq_true, if_false]
  rw [fin2_succF_1, fin2_predF_1, fin2_succF_0, h1, henp, hepn]
  apply CPair.ext <;>
    simp [mk_phases, cc_mul, rc_mul, s_mul, cdiv2, CPair.add_def, CPair.sub_def] <;> ring

/-- Physical product-form splitter coefficients (arbitrary per-layer splitter
angles k1, k2, arbitrary internal/external phases) in the even-row stripe
arrangement make every built layer of a two-path mesh unitary: the
layer-unitarity hypothesis of the roundtrip theorem is exactly the lossless
regime, not an empty condition. -/
theorem product_form_layers_unitary {L : Nat} (P : MeshParams 2 L) (k1 k2 : Fin L → ℝ)
    (hh : P.hadamard = false) (hb : P.basis = MeshBasis.single_mode)
    (hepp : P.epp = fun n l => if n.val = 0 then 2 * Real.cos (k1 l) * Real.cos (k2 l) else 0)
    (henn : P.enn = fun n l => if n.val = 0 then 2 * Real.sin (k1 l) * Real.sin (k2 l) else 0)
    (henp : P.enp = fun n l => if n.val = 0 then 2 * Real.sin (k1 l) * Real.cos (k2 l) else 0)
    (hepn : P.epn = fun n l => if n.val = 0 then 2 * Real.cos (k1 l) * Real.sin (k2 l) else 0) :
    ∀ V ∈ mesh_layers P (mk_phases P), LayerUnitary V := by
  intro V hV
  obtain ⟨l, hl, rfl⟩ := List.mem_map.mp hV
  have hd0 := two_d0 P k1 k2 hh hb l hepp henn
  have hd1 := two_d1 P k1 k2 hh hb l hepp henn
  have ho0 := two_o0 P k1 k2 hh hb l henp hepn
  have ho1 := two_o1 P k1 k2 hh hb l henp hepn
  have hT := Real.sin_sq_add_cos_sq (internal_phase_shifts P 0 l)
  have hF := Real.sin_sq_add_cos_sq (external_phase_shifts P 0 l)
  have h1 := Real.sin_sq_add_cos_sq (k1 l)
  have h2 := Real.sin_sq_add_cos_sq (k2 l)
  have hcond0 : cc_mul (diag_layers P (mk_phases P) 0 l)
        (conj_t (diag_layers P (mk_phases P) 0 l)) +
      cc_mul (off_diag_layers P (mk_phases P) 0 l)
        (conj_t (off_diag_layers P (mk_phases P) 0 l)) = (⟨1, 0⟩ : CPair) := by
    rw [hd0, ho0]
    apply CPair.ext <;> simp only [cc_mul_re, cc_mul_im, conj_t_re, conj_t_im,
      CPair.add_re, CPair.add_im, CPair.re_mk, CPair.im_mk]
    · linear_combination
        ((Real.cos (k1 l) * Real.cos (k2 l) * Real.cos (internal_phase_shifts P 0 l) -
            Real.sin (k1 l) * Real.sin (k2 l)) ^ 2 +
          (Real.cos (k1 l) * Real.cos (k2 l) * Real.sin (internal_phase_shifts P 0 l)) ^ 2) *
            hF +
          Real.cos (k1 l) ^ 2 * (Real.cos (k2 l) ^ 2 + Real.sin (k2 l) ^ 2) * hT +
          (Real.cos (k1 l) ^ 2 + Real.sin (k1 l) ^ 2) * h2 + h1
    · ring
  have hcross0 : cc_mul (conj_t (diag_layers P (mk_phases P) 0 l))
        (off_diag_layers P (mk_phases P) 1 l) +
      cc_mul (conj_t (off_diag_layers P (mk_phases P) 0 l))
        (diag_layers P (mk_phases P) 1 l) = (⟨0, 0⟩ : CPair) := by
    rw [hd0, ho0, hd1, ho1]
    apply CPair.ext <;> simp only [cc_mul_re, cc_mul_im, conj_t_re, conj_t_im,
      CPair.add_re, CPair.add_im, CPair.re_mk, CPair.im_mk]
    · linear_combination
        ((Real.cos (k1 l) * Real.cos (k2 l) * Real.cos (internal_phase_shifts P 0 l) -
            Real.sin (k1 l) * Real.sin (k2 l)) *
            (-(Real.sin (k1 l) * Real.cos (k2 l) * Real.sin (internal_phase_shifts P 0 l))) +
          (Real.cos (k1 l) * Real.cos (k2 l) * Real.sin (internal_phase_shifts P 0 l)) *
            (Real.sin (k1 l) * Real.cos (k2 l) * Real.cos (internal_phase_shifts P 0 l) +
              Real.cos (k1 l) * Real.sin (k2 l))) * hF
    · linear_combination
        ((Real.cos (k1 l) * Real.cos (k2 l) * Real.cos (internal_phase_shifts P 0 l) -
            Real.sin (k1 l) * Real.sin (k2 l)) *
            (Real.sin (k1 l) * Real.cos (k2 l) * Real.cos (internal_phase_shifts P 0 l) +
              Real.cos (k1 l) * Real.sin (k2 l)) -
          (Real.cos (k1 l) * Real.cos (k2 l) * Real.sin (internal_phase_shifts P 0 l)) *
            (-(Real.sin (k1 l) * Real.cos (k2 l) * Real.sin (internal_phase_shifts P 0 l)))) *
            hF +
          Real.cos (k1 l) * Real.sin (k1 l) *
            (Real.cos (k2 l) ^ 2 + Real.sin (k2 l) ^ 2) * hT
  have hcond1 : cc_mul (diag_layers P (mk_phases P) 1 l)
        (conj_t (diag_layers P (mk_phases P) 1 l)) +
      cc_mul (off_diag_layers P (mk_phases P) 1 l)
        (conj_t (off_diag_layers P (mk_phases P) 1 l)) = (⟨1, 0⟩ : CPair) := by
    rw [hd1, ho1]
    apply CPair.ext <;> simp only [cc_mul_re, cc_mul_im, conj_t_re, conj_t_im,
      CPair.add_re, CPair.add_im, CPair.re_mk, CPair.im_mk]
    · linear_combination
        ((-(Real.sin (k1 l) * Real.cos (k2 l) * Real.sin (internal_phase_shifts P 0 l))) ^ 2 +
          (Real.sin (k1 l) * Real.cos (k2 l) * Real.cos (internal_phase_shifts P 0 l) +
            Real.cos (k1 l) * Real.sin (k2 l)) ^ 2) * hF +
          Real.sin (k1 l) ^ 2 * (Real.cos (k2 l) ^ 2 + Real.sin (k2 l) ^ 2) * hT +
          (Real.cos (k1 l) ^ 2 + Real.sin (k1 l) ^ 2) * h2 + h1
    · ring
  have hcross1 : cc_mul (conj_t (diag_layers P (mk_phases P) 1 l))
        (off_diag_layers P (mk_phases P) 0 l) +
      cc_mul (conj_t (off_diag_layers P (mk_phases P) 1 l))
        (diag_layers P (mk_phases P) 0 l) = (⟨0, 0⟩ : CPair) := by
    rw [hd0, ho0, hd1, ho1]
    apply CPair.ext <;> simp only [cc_mul_re, cc_mul_im, conj_t_re, conj_t_im,
      CPair.add_re, CPair.add_im, CPair.re_mk, CPair.im_mk]
    · linear_combination
        ((-(Real.sin (k1 l) * Real.cos (k2 l) * Real.sin (internal_phase_shifts P 0 l))) *
            (Real.cos (k1 l) * Real.cos (k2 l) * Real.cos (internal_phase_shifts P 0 l) -
              Real.sin (k1 l) * Real.sin (k2 l)) +
          (Real.sin (k1 l) * Real.cos (k2 l) * Real.cos (internal_phase_shifts P 0 l) +
            Real.cos (k1 l) * Real.sin (k2 l)) *
            (Real.cos (k1 l) * Real.cos (k2 l) * Real.sin (internal_phase_shifts P 0 l))) * hF
    · linear_combination
        ((-(Real.sin (k1 l) * Real.cos (k2 l) * Real.sin (internal_phase_shifts P 0 l))) *
            (Real.cos (k1 l) * Real.cos (k2 l) * Real.sin (internal_phase_shifts P 0 l)) -
          (Real.sin (k1 l) * Real.cos (k2 l) * Real.cos (internal_phase_shifts P 0 l) +
            Real.cos (k1 l) * Real.sin (k2 l)) *
            (Real.cos (k1 l) * Real.cos (k2 l) * Real.cos (internal_phase_shifts P 0 l) -
              Real.sin (k1 l) * Real.sin (k2 l))) * hF -
          Real.cos (k1 l) * Real.sin (k1 l) *
            (Real.cos (k2 l) ^ 2 + Real.sin (k2 l) ^ 2) * hT
  intro n
  fin_cases n
  · exact ⟨hcond0, hcross0⟩
  · exact ⟨hcond1, hcross1⟩
